import Mathlib

/-!
Merkle hash tree: a shallow embedding of `src/lib.rs`.

Byte sequences (`Vec<u8>`) are modelled as `List Nat`; `Data` and `Hash`
are the source's two aliases for them.  The digest function
`sha2::Sha256::digest` comes from an external crate, not this repository,
so every definition is parameterised over an arbitrary digest function
`hash_data : Data → Hash` (the source's `hash_data` wraps exactly that
call).  All structural properties of the tree are independent of the
concrete digest; where the source relies on SHA-256 digests being
non-empty (32 bytes), that fact appears as an explicit hypothesis.

Panicking operations (`unwrap`, out-of-range indexing) are modelled with
`Option`, `none` standing for the panic.  The `while` loops of
`construct` and `verify` are modelled with an explicit fuel argument;
one reduction step at least halves the level length, so fuel equal to
the initial length is always sufficient (`reduceAllFuel_ext`,
`buildLevelsFuel_ext` below show fuel irrelevance past that point).
-/

abbrev Data : Type := List Nat

abbrev Hash : Type := List Nat

/-- Rust `enum HashDirection`: which side the proof hash goes on when
concatenating. -/
inductive HashDirection : Type
  | Left : HashDirection
  | Right : HashDirection
deriving DecidableEq

/-- Rust `struct Proof`: the hashes to use when verifying the proof, with the
side each one goes on. -/
structure Proof : Type where
  hashes : List (HashDirection × Hash)
deriving DecidableEq

/-- Rust `struct MerkleTree`: nodes at each level, plus the `HashMap` from
leaf hash to leaf index (modelled as a lookup function; insertion order
of `construct` means the last occurrence of a duplicated hash wins). -/
structure MerkleTree : Type where
  nodes : List (List Hash)
  leaves_idx : Hash → Option Nat

section MerkleModel

variable (hash_data : Data → Hash)

/-- Rust `fn hash_concat`: hash of the concatenation of two hashes. -/
def hash_concat (h1 h2 : Hash) : Hash :=
  hash_data (h1 ++ h2)

/-- One pass of `new_nodes.chunks(2).map(...)`: adjacent pairs are
combined with `hash_concat`, a trailing single element is cloned
unchanged. -/
def reduceLevel : List Hash → List Hash
  | [] => []
  | [a] => [a]
  | a :: b :: rest => hash_concat hash_data a b :: reduceLevel rest

/-- The `while new_nodes.len() > 1` loop of `construct`, which records
every level and finally pushes the last one; `fuel` bounds the number of
iterations (the initial level length always suffices). -/
def buildLevelsFuel : Nat → List Hash → List (List Hash)
  | 0, cur => [cur]
  | fuel + 1, cur =>
      if 1 < cur.length then cur :: buildLevelsFuel fuel (reduceLevel hash_data cur)
      else [cur]

/-- All levels of the tree built from level-0 contents `cur`, bottom to
top (the loop of `construct` plus the final `nodes.push`). -/
def buildLevels (cur : List Hash) : List (List Hash) :=
  buildLevelsFuel hash_data cur.length cur

/-- The `while nodes.len() > 1` loop of `verify`, which keeps only the
current level; `fuel` bounds the number of iterations. -/
def reduceAllFuel : Nat → List Hash → List Hash
  | 0, l => l
  | fuel + 1, l =>
      if 1 < l.length then reduceAllFuel fuel (reduceLevel hash_data l)
      else l

/-- The fully reduced final level obtained from level-0 contents `l`. -/
def reduceAll (l : List Hash) : List Hash :=
  reduceAllFuel hash_data l.length l

/-- The `leaves_idx` map after inserting hash `h` at key positions
`i, i+1, ...` for the successive elements of the list: a later insert of
the same key overwrites an earlier one, so lookup returns the index of
the last occurrence. -/
def buildIdx : Nat → List Hash → Hash → Option Nat
  | _, [] => fun _ => none
  | i, h :: rest => fun k =>
      match buildIdx (i + 1) rest k with
      | some j => some j
      | none => if k = h then some i else none

/-- Rust `MerkleTree::construct`: hash every record into level 0 (recording
each leaf hash's index), then reduce level by level until one node is
left, keeping every level. -/
def MerkleTree.construct (input : List Data) : MerkleTree :=
  let newNodes : List Hash := input.map hash_data
  { nodes := buildLevels hash_data newNodes
    leaves_idx := buildIdx 0 newNodes }

/-- Rust `MerkleTree::root`: the single digest of the last level.  The two
`unwrap`s panic when there is no level or the last level is empty
(the tree of an empty input); the panic is modelled as `none`. -/
def MerkleTree.root (t : MerkleTree) : Option Hash :=
  t.nodes.getLast?.bind fun lvl => lvl[0]?

/-- Rust `MerkleTree::verify`: an empty input verifies exactly against an
empty claimed root; otherwise the root is recomputed from scratch
(levels discarded) and compared byte-for-byte. -/
def MerkleTree.verify (input : List Data) (root_hash : Hash) : Bool :=
  if input.isEmpty then root_hash.isEmpty
  else decide ((reduceAll hash_data (input.map hash_data))[0]? = some root_hash)

/-- One iteration of the `verify_proof` loop: concatenate the proof hash
on the recorded side of the running hash. -/
def proofStep (cur : Hash) (p : HashDirection × Hash) : Hash :=
  match p.1 with
  | HashDirection.Left => hash_concat hash_data p.2 cur
  | HashDirection.Right => hash_concat hash_data cur p.2

/-- Rust `MerkleTree::verify_proof`: fold the proof hashes over
`hash_data data` and compare with the claimed root. -/
def MerkleTree.verify_proof (data : Data) (proof : Proof) (root_hash : Hash) : Bool :=
  decide (proof.hashes.foldl (proofStep hash_data) (hash_data data) = root_hash)

/-- The `for level in 0..self.nodes.len()-1` loop of `prove`, walking the
given levels with the current index: an even index emits its right
neighbour when that neighbour exists, an odd index emits its left
neighbour (whose in-range access is modelled as `Option`, `none` being
the panic of `self.nodes[level][current_idx-1]`). -/
def collectProof : List (List Hash) → Nat → Option (List (HashDirection × Hash))
  | [], _ => some []
  | level :: rest, idx =>
      if idx % 2 = 0 then
        match level[idx + 1]? with
        | some nh => (collectProof rest (idx / 2)).map fun t => (HashDirection.Right, nh) :: t
        | none => collectProof rest (idx / 2)
      else
        match level[idx - 1]? with
        | some nh => (collectProof rest (idx / 2)).map fun t => (HashDirection.Left, nh) :: t
        | none => none

/-- Rust `MerkleTree::prove`: look the record's hash up in `leaves_idx`; if
absent return `None` (modelled `some none`: no panic, no proof), else
walk all levels but the last collecting sibling hashes (outer `none`
models a panic inside the walk). -/
def MerkleTree.prove (t : MerkleTree) (data : Data) : Option (Option Proof) :=
  match t.leaves_idx (hash_data data) with
  | some idx => (collectProof t.nodes.dropLast idx).map fun hs => some { hashes := hs }
  | none => some none

end MerkleModel

section MerkleLemmas

variable (hash_data : Data → Hash)

theorem reduceLevel_length : ∀ l : List Hash,
    (reduceLevel hash_data l).length = (l.length + 1) / 2
  | [] => by simp [reduceLevel]
  | [a] => by simp [reduceLevel]
  | a :: b :: rest => by
      simp only [reduceLevel, List.length_cons]
      rw [reduceLevel_length rest]
      omega

theorem reduceLevel_getElem? : ∀ (l : List Hash) (j : Nat),
    (reduceLevel hash_data l)[j]? =
      match l[2 * j]?, l[2 * j + 1]? with
      | some a, some b => some (hash_concat hash_data a b)
      | some a, none => some a
      | none, _ => none
  | [], j => by simp [reduceLevel]
  | [a], 0 => by simp [reduceLevel]
  | [a], j + 1 => by
      have h1 : ([a] : List Hash)[2 * (j + 1)]? = none :=
        List.getElem?_eq_none (by simp; omega)
      simp [reduceLevel, h1]
  | a :: b :: rest, 0 => by simp [reduceLevel]
  | a :: b :: rest, j + 1 => by
      have h1 : 2 * (j + 1) = 2 * j + 1 + 1 := by omega
      rw [h1]
      simp only [reduceLevel, List.getElem?_cons_succ]
      exact reduceLevel_getElem? rest j

theorem reduceAllFuel_ext : ∀ (f1 f2 : Nat) (l : List Hash),
    l.length ≤ f1 → l.length ≤ f2 →
    reduceAllFuel hash_data f1 l = reduceAllFuel hash_data f2 l := by
  intro f1
  induction f1 with
  | zero =>
      intro f2 l h1 h2
      obtain rfl : l = [] := List.length_eq_zero.mp (Nat.le_zero.mp h1)
      cases f2 <;> simp [reduceAllFuel]
  | succ f1 ih =>
      intro f2 l h1 h2
      by_cases hl : 1 < l.length
      · obtain ⟨f2', rfl⟩ : ∃ f2', f2 = f2' + 1 := ⟨f2 - 1, by omega⟩
        simp only [reduceAllFuel, if_pos hl]
        apply ih
        · rw [reduceLevel_length]; omega
        · rw [reduceLevel_length]; omega
      · cases f2 <;> simp [reduceAllFuel, hl]

theorem reduceAll_base (l : List Hash) (h : l.length ≤ 1) :
    reduceAll hash_data l = l := by
  unfold reduceAll
  have h' : l.length = 0 ∨ l.length = 1 := by omega
  rcases h' with h' | h' <;> rw [h'] <;> simp [reduceAllFuel, h']

theorem reduceAll_step (l : List Hash) (h : 1 < l.length) :
    reduceAll hash_data l = reduceAll hash_data (reduceLevel hash_data l) := by
  unfold reduceAll
  obtain ⟨n, hn⟩ : ∃ n, l.length = n + 1 := ⟨l.length - 1, by omega⟩
  rw [hn]
  simp only [reduceAllFuel, if_pos h]
  apply reduceAllFuel_ext
  · rw [reduceLevel_length]; omega
  · rw [reduceLevel_length]

theorem buildLevelsFuel_ext : ∀ (f1 f2 : Nat) (cur : List Hash),
    cur.length ≤ f1 → cur.length ≤ f2 →
    buildLevelsFuel hash_data f1 cur = buildLevelsFuel hash_data f2 cur := by
  intro f1
  induction f1 with
  | zero =>
      intro f2 cur h1 h2
      obtain rfl : cur = [] := List.length_eq_zero.mp (Nat.le_zero.mp h1)
      cases f2 <;> simp [buildLevelsFuel]
  | succ f1 ih =>
      intro f2 cur h1 h2
      by_cases hl : 1 < cur.length
      · obtain ⟨f2', rfl⟩ : ∃ f2', f2 = f2' + 1 := ⟨f2 - 1, by omega⟩
        simp only [buildLevelsFuel, if_pos hl]
        rw [ih]
        · rw [reduceLevel_length]; omega
        · rw [reduceLevel_length]; omega
      · cases f2 <;> simp [buildLevelsFuel, hl]

theorem buildLevels_base (cur : List Hash) (h : cur.length ≤ 1) :
    buildLevels hash_data cur = [cur] := by
  unfold buildLevels
  have h' : cur.length = 0 ∨ cur.length = 1 := by omega
  rcases h' with h' | h' <;> rw [h'] <;> simp [buildLevelsFuel, h']

theorem buildLevels_step (cur : List Hash) (h : 1 < cur.length) :
    buildLevels hash_data cur =
      cur :: buildLevels hash_data (reduceLevel hash_data cur) := by
  unfold buildLevels
  obtain ⟨n, hn⟩ : ∃ n, cur.length = n + 1 := ⟨cur.length - 1, by omega⟩
  rw [hn]
  simp only [buildLevelsFuel, if_pos h]
  congr 1
  apply buildLevelsFuel_ext
  · rw [reduceLevel_length]; omega
  · rw [reduceLevel_length]

theorem buildLevels_ne_nil (cur : List Hash) : buildLevels hash_data cur ≠ [] := by
  by_cases h : 1 < cur.length
  · rw [buildLevels_step hash_data cur h]; simp
  · rw [buildLevels_base hash_data cur (by omega)]; simp

theorem buildIdx_eq_none : ∀ (i : Nat) (ls : List Hash) (k : Hash),
    buildIdx i ls k = none ↔ k ∉ ls
  | i, [], k => by simp [buildIdx]
  | i, h :: rest, k => by
      simp only [buildIdx, List.mem_cons]
      rcases hrec : buildIdx (i + 1) rest k with _ | j
      · have hnm := (buildIdx_eq_none (i + 1) rest k).mp hrec
        by_cases hk : k = h <;> simp [hk, hnm]
      · have hmem : k ∈ rest := by
          by_contra hnm
          rw [(buildIdx_eq_none (i + 1) rest k).mpr hnm] at hrec
          exact Option.noConfusion hrec
        simp [hmem]

theorem buildIdx_some_getElem? : ∀ (i : Nat) (ls : List Hash) (k : Hash) (j : Nat),
    buildIdx i ls k = some j → i ≤ j ∧ ls[j - i]? = some k
  | i, [], k, j => by simp [buildIdx]
  | i, h :: rest, k, j => by
      intro hj
      simp only [buildIdx] at hj
      rcases hrec : buildIdx (i + 1) rest k with _ | j'
      · rw [hrec] at hj
        simp only at hj
        by_cases hk : k = h
        · rw [if_pos hk] at hj
          obtain rfl : i = j := Option.some.inj hj
          exact ⟨Nat.le_refl i, by simp [hk]⟩
        · rw [if_neg hk] at hj
          exact absurd hj (by simp)
      · rw [hrec] at hj
        simp only at hj
        obtain rfl : j' = j := Option.some.inj hj
        obtain ⟨hle, hget⟩ := buildIdx_some_getElem? (i + 1) rest k j' hrec
        refine ⟨by omega, ?_⟩
        have hsub : j' - i = (j' - (i + 1)) + 1 := by omega
        rw [hsub, List.getElem?_cons_succ]
        exact hget

theorem buildIdx_last : ∀ (i : Nat) (ls : List Hash) (k : Hash) (m : Nat),
    ls[m]? = some k → (∀ m', m < m' → ls[m']? ≠ some k) →
    buildIdx i ls k = some (i + m)
  | i, [], k, m => by simp
  | i, h :: rest, k, 0 => by
      intro hm hlast
      have hk : k = h := by
        have : some h = some k := by simpa using hm
        exact (Option.some.inj this).symm
      subst hk
      have hnone : buildIdx (i + 1) rest k = none := by
        rw [buildIdx_eq_none]
        intro hmem
        obtain ⟨n, hn⟩ := List.mem_iff_getElem?.mp hmem
        exact hlast (n + 1) (by omega) (by rw [List.getElem?_cons_succ]; exact hn)
      simp [buildIdx, hnone]
  | i, h :: rest, k, m + 1 => by
      intro hm hlast
      have hrec := buildIdx_last (i + 1) rest k m (by simpa using hm)
        (fun m' hm' hc => hlast (m' + 1) (by omega)
          (by rw [List.getElem?_cons_succ]; exact hc))
      simp only [buildIdx, hrec]
      congr 1
      omega

theorem collectProof_length : ∀ (levels : List (List Hash)) (idx : Nat)
    (pairs : List (HashDirection × Hash)),
    collectProof levels idx = some pairs → pairs.length ≤ levels.length
  | [], idx, pairs => by
      intro h
      simp only [collectProof] at h
      obtain rfl : [] = pairs := Option.some.inj h
      simp
  | level :: rest, idx, pairs => by
      intro h
      simp only [collectProof] at h
      by_cases hp : idx % 2 = 0
      · rw [if_pos hp] at h
        rcases hn : level[idx + 1]? with _ | nh
        · rw [hn] at h
          have := collectProof_length rest (idx / 2) pairs h
          simp only [List.length_cons]
          omega
        · rw [hn] at h
          obtain ⟨t, hc, hpf⟩ := Option.map_eq_some'.mp h
          have := collectProof_length rest (idx / 2) t hc
          rw [← hpf]
          simp only [List.length_cons]
          omega
      · rw [if_neg hp] at h
        rcases hn : level[idx - 1]? with _ | nh
        · rw [hn] at h
          exact absurd h (by simp)
        · rw [hn] at h
          obtain ⟨t, hc, hpf⟩ := Option.map_eq_some'.mp h
          have := collectProof_length rest (idx / 2) t hc
          rw [← hpf]
          simp only [List.length_cons]
          omega

theorem buildLevels_getLast? : ∀ (n : Nat) (cur : List Hash), cur.length ≤ n →
    (buildLevels hash_data cur).getLast? = some (reduceAll hash_data cur) := by
  intro n
  induction n with
  | zero =>
      intro cur h
      rw [buildLevels_base hash_data cur (by omega),
        reduceAll_base hash_data cur (by omega)]
      simp
  | succ n ih =>
      intro cur h
      by_cases h1 : 1 < cur.length
      · rw [buildLevels_step hash_data cur h1, reduceAll_step hash_data cur h1]
        obtain ⟨x, xs, hx⟩ :=
          List.exists_cons_of_ne_nil
            (buildLevels_ne_nil hash_data (reduceLevel hash_data cur))
        rw [hx, List.getLast?_cons_cons, ← hx]
        apply ih
        rw [reduceLevel_length]
        omega
      · rw [buildLevels_base hash_data cur (by omega),
          reduceAll_base hash_data cur (by omega)]
        simp

theorem reduceAll_length_one : ∀ (n : Nat) (l : List Hash), l.length ≤ n → l ≠ [] →
    (reduceAll hash_data l).length = 1 := by
  intro n
  induction n with
  | zero =>
      intro l h hne
      exact absurd (List.length_eq_zero.mp (Nat.le_zero.mp h)) hne
  | succ n ih =>
      intro l h hne
      by_cases h1 : 1 < l.length
      · rw [reduceAll_step hash_data l h1]
        apply ih
        · rw [reduceLevel_length]; omega
        · apply List.ne_nil_of_length_pos
          rw [reduceLevel_length]; omega
      · rw [reduceAll_base hash_data l (by omega)]
        have : l.length ≠ 0 := fun hc => hne (List.length_eq_zero.mp hc)
        omega

theorem buildLevels_head (cur : List Hash) :
    (buildLevels hash_data cur)[0]? = some cur := by
  by_cases h : 1 < cur.length
  · rw [buildLevels_step hash_data cur h]; simp
  · rw [buildLevels_base hash_data cur (by omega)]; simp

theorem buildLevels_length : ∀ (n : Nat) (cur : List Hash), cur.length ≤ n →
    (buildLevels hash_data cur).length = Nat.clog 2 cur.length + 1 := by
  intro n
  induction n with
  | zero =>
      intro cur h
      rw [buildLevels_base hash_data cur (by omega)]
      have h0 : cur.length = 0 := by omega
      rw [h0]
      simp
  | succ n ih =>
      intro cur h
      by_cases h1 : 1 < cur.length
      · rw [buildLevels_step hash_data cur h1]
        simp only [List.length_cons]
        rw [ih (reduceLevel hash_data cur) (by rw [reduceLevel_length]; omega)]
        rw [reduceLevel_length]
        have hc := @Nat.clog_of_two_le 2 cur.length (by norm_num)
          (show 2 ≤ cur.length by omega)
        have he : cur.length + 2 - 1 = cur.length + 1 := by omega
        rw [he] at hc
        omega
      · rw [buildLevels_base hash_data cur (by omega)]
        have h' : cur.length = 0 ∨ cur.length = 1 := by omega
        rcases h' with h' | h' <;> rw [h'] <;> simp [Nat.clog_one_right]

theorem buildLevels_chain : ∀ (n : Nat) (cur : List Hash), cur.length ≤ n →
    ∀ (i : Nat) (li lj : List Hash),
      (buildLevels hash_data cur)[i]? = some li →
      (buildLevels hash_data cur)[i + 1]? = some lj →
      lj.length = (li.length + 1) / 2 := by
  intro n
  induction n with
  | zero =>
      intro cur h i li lj hi hj
      rw [buildLevels_base hash_data cur (by omega)] at hj
      rw [List.getElem?_eq_none (by simp)] at hj
      exact absurd hj (by simp)
  | succ n ih =>
      intro cur h i li lj hi hj
      by_cases h1 : 1 < cur.length
      · rw [buildLevels_step hash_data cur h1] at hi hj
        cases i with
        | zero =>
            rw [List.getElem?_cons_zero] at hi
            obtain rfl : cur = li := Option.some.inj hi
            rw [List.getElem?_cons_succ, buildLevels_head] at hj
            obtain rfl : reduceLevel hash_data cur = lj := Option.some.inj hj
            rw [reduceLevel_length]
        | succ i =>
            rw [List.getElem?_cons_succ] at hi hj
            exact ih (reduceLevel hash_data cur)
              (by rw [reduceLevel_length]; omega) i li lj hi hj
      · rw [buildLevels_base hash_data cur (by omega)] at hj
        rw [List.getElem?_eq_none (by simp)] at hj
        exact absurd hj (by simp)

/-- Walking up from a valid position in level 0 collects sibling pairs
that fold (in `verify_proof`'s manner) from the digest at that position
to the root digest. -/
theorem roundtrip_aux : ∀ (n : Nat) (cur : List Hash) (idx : Nat) (h : Hash),
    cur.length ≤ n → cur[idx]? = some h →
    ∃ pairs, collectProof (buildLevels hash_data cur).dropLast idx = some pairs ∧
      (reduceAll hash_data cur)[0]? =
        some (pairs.foldl (proofStep hash_data) h) := by
  intro n
  induction n with
  | zero =>
      intro cur idx h hlen hidx
      obtain rfl : cur = [] := List.length_eq_zero.mp (Nat.le_zero.mp hlen)
      exact absurd hidx (by simp)
  | succ n ih =>
      intro cur idx h hlen hidx
      have hidxlt : idx < cur.length := (List.getElem?_eq_some.mp hidx).1
      by_cases h1 : 1 < cur.length
      · rw [buildLevels_step hash_data cur h1, reduceAll_step hash_data cur h1,
          List.dropLast_cons_of_ne_nil (buildLevels_ne_nil hash_data _)]
        by_cases hp : idx % 2 = 0
        · rcases hn : cur[idx + 1]? with _ | sib
          · have hnext : (reduceLevel hash_data cur)[idx / 2]? = some h := by
              rw [reduceLevel_getElem?]
              have h2 : 2 * (idx / 2) = idx := by omega
              rw [h2, hidx, hn]
            obtain ⟨pairs, hcp, hfold⟩ := ih (reduceLevel hash_data cur) (idx / 2) h
              (by rw [reduceLevel_length]; omega) hnext
            refine ⟨pairs, ?_, hfold⟩
            simp only [collectProof, if_pos hp, hn]
            exact hcp
          · have hnext : (reduceLevel hash_data cur)[idx / 2]? =
                some (hash_concat hash_data h sib) := by
              rw [reduceLevel_getElem?]
              have h2 : 2 * (idx / 2) = idx := by omega
              rw [h2, hidx, hn]
            obtain ⟨pairs, hcp, hfold⟩ := ih (reduceLevel hash_data cur) (idx / 2)
              (hash_concat hash_data h sib)
              (by rw [reduceLevel_length]; omega) hnext
            refine ⟨(HashDirection.Right, sib) :: pairs, ?_, ?_⟩
            · simp only [collectProof, if_pos hp, hn, hcp, Option.map_some']
            · rw [List.foldl_cons]
              exact hfold
        · rcases hsib : cur[idx - 1]? with _ | sib
          · rw [List.getElem?_eq_getElem (show idx - 1 < cur.length by omega)] at hsib
            exact absurd hsib (by simp)
          · have hnext : (reduceLevel hash_data cur)[idx / 2]? =
                some (hash_concat hash_data sib h) := by
              rw [reduceLevel_getElem?]
              have h2 : 2 * (idx / 2) = idx - 1 := by omega
              rw [h2]
              have h3 : idx - 1 + 1 = idx := by omega
              rw [h3, hsib, hidx]
            obtain ⟨pairs, hcp, hfold⟩ := ih (reduceLevel hash_data cur) (idx / 2)
              (hash_concat hash_data sib h)
              (by rw [reduceLevel_length]; omega) hnext
            refine ⟨(HashDirection.Left, sib) :: pairs, ?_, ?_⟩
            · simp only [collectProof, if_neg hp, hsib, hcp, Option.map_some']
            · rw [List.foldl_cons]
              exact hfold
      · rw [buildLevels_base hash_data cur (by omega),
          reduceAll_base hash_data cur (by omega)]
        obtain rfl : idx = 0 := by omega
        refine ⟨[], by simp [collectProof], ?_⟩
        simpa using hidx

/-- Every digest in the fully reduced level is a digest the hash
function produced, provided every level-0 digest is. -/
theorem reduceLevel_mem_range : ∀ (l : List Hash),
    (∀ x ∈ l, ∃ d, x = hash_data d) →
    ∀ x ∈ reduceLevel hash_data l, ∃ d, x = hash_data d
  | [] => by simp [reduceLevel]
  | [a] => by intro hl; simpa [reduceLevel] using hl
  | a :: b :: rest => by
      intro hl x hx
      simp only [reduceLevel, List.mem_cons] at hx
      rcases hx with rfl | hx
      · exact ⟨a ++ b, rfl⟩
      · exact reduceLevel_mem_range rest (fun y hy => hl y (by simp [hy])) x hx

theorem reduceAll_mem_range : ∀ (n : Nat) (l : List Hash),
    l.length ≤ n → (∀ x ∈ l, ∃ d, x = hash_data d) →
    ∀ x ∈ reduceAll hash_data l, ∃ d, x = hash_data d := by
  intro n
  induction n with
  | zero =>
      intro l hlen hl
      obtain rfl : l = [] := List.length_eq_zero.mp (Nat.le_zero.mp hlen)
      rw [reduceAll_base hash_data [] (by simp)]
      simp
  | succ n ih =>
      intro l hlen hl
      by_cases h1 : 1 < l.length
      · rw [reduceAll_step hash_data l h1]
        exact ih _ (by rw [reduceLevel_length]; omega)
          (reduceLevel_mem_range hash_data l hl)
      · rw [reduceAll_base hash_data l (by omega)]
        exact hl

theorem construct_nodes (input : List Data) :
    (MerkleTree.construct hash_data input).nodes =
      buildLevels hash_data (input.map hash_data) := rfl

theorem construct_leaves_idx (input : List Data) :
    (MerkleTree.construct hash_data input).leaves_idx =
      buildIdx 0 (input.map hash_data) := rfl

theorem root_construct_eq (input : List Data) :
    (MerkleTree.construct hash_data input).root =
      (reduceAll hash_data (input.map hash_data))[0]? := by
  show (MerkleTree.construct hash_data input).nodes.getLast?.bind _ =
    (reduceAll hash_data (input.map hash_data))[0]?
  rw [construct_nodes,
    buildLevels_getLast? hash_data (input.map hash_data).length _ (Nat.le_refl _)]
  rfl

/-- When the leaf index map holds `idx` for a record's digest and level 0
really has that digest at `idx`, `prove` succeeds and its proof verifies
against the tree's own root. -/
theorem prove_verify_of_getElem? (input : List Data) (idx : Nat) (record : Data)
    (hidx : buildIdx 0 (input.map hash_data) (hash_data record) = some idx)
    (hget : (input.map hash_data)[idx]? = some (hash_data record)) :
    ∃ p r,
      MerkleTree.prove hash_data (MerkleTree.construct hash_data input) record =
        some (some p) ∧
      (MerkleTree.construct hash_data input).root = some r ∧
      MerkleTree.verify_proof hash_data record p r = true := by
  obtain ⟨pairs, hcp, hfold⟩ := roundtrip_aux hash_data (input.map hash_data).length
    (input.map hash_data) idx (hash_data record) (Nat.le_refl _) hget
  refine ⟨{ hashes := pairs },
    pairs.foldl (proofStep hash_data) (hash_data record), ?_, ?_, ?_⟩
  · simp only [MerkleTree.prove, construct_leaves_idx, construct_nodes, hidx, hcp,
      Option.map_some']
  · rw [root_construct_eq]
    exact hfold
  · simp [MerkleTree.verify_proof]

end MerkleLemmas

/-- A concrete executable digest function used to instantiate the
parameterised model on concrete inputs: it prefixes a byte, so it is
injective and never returns the empty sequence (as a fixed-width
cryptographic digest never does). -/
def sampleHash : Data → Hash := fun d => 0 :: d

/-- Claim C1: the claim says `root` on the tree of an empty record
sequence returns the empty byte sequence and does not fail.  The code
disagrees with the spec it was written against: `construct` of an empty
input leaves a single empty level, and `root`'s `.get(0).unwrap()` on
that empty level panics (modelled as `none`), instead of returning the
empty sentinel digest the spec promises.  This theorem evaluates the
code at the failing input. -/
theorem C1_empty_tree_root_panics (hash_data : Data → Hash) :
    (MerkleTree.construct hash_data []).root = none := by
  rw [root_construct_eq, reduceAll_base hash_data _ (by simp)]
  simp

/-- Claim C2 counterexample: at the empty record set the composition
`verify(records, construct(records).root())` cannot return true, because
`root` panics (is `none` in the model) on the empty tree. -/
theorem C2_counterexample :
    ¬ ∃ r, (MerkleTree.construct sampleHash []).root = some r ∧
        MerkleTree.verify sampleHash [] r = true := by
  rintro ⟨r, hr, -⟩
  rw [root_construct_eq, reduceAll_base sampleHash _ (by simp)] at hr
  simp at hr

/-- Claim C2, amended to non-empty record sets (the empty set fails only
because `root` panics there, see the counterexample): for every
non-empty record set, `verify(records, construct(records).root())`
returns true. -/
theorem C2_verify_agreement (hash_data : Data → Hash) (input : List Data)
    (hne : input ≠ []) :
    ∃ r, (MerkleTree.construct hash_data input).root = some r ∧
      MerkleTree.verify hash_data input r = true := by
  have hmapne : input.map hash_data ≠ [] := by simp [hne]
  obtain ⟨r, hr⟩ := List.length_eq_one.mp
    (reduceAll_length_one hash_data (input.map hash_data).length _
      (Nat.le_refl _) hmapne)
  refine ⟨r, ?_, ?_⟩
  · rw [root_construct_eq, hr]
    rfl
  · show MerkleTree.verify hash_data input r = true
    unfold MerkleTree.verify
    rw [if_neg (by simp [hne]), hr]
    simp

theorem C2_verify_agreement_witness :
    ∃ r, (MerkleTree.construct sampleHash [[5]]).root = some r ∧
      MerkleTree.verify sampleHash [[5]] r = true :=
  C2_verify_agreement sampleHash [[5]] (by decide)

/-- Claim C3: for every non-empty record set and every record in that
set, `prove` returns a proof and `verify_proof` of that proof against
the tree's own root returns true. -/
theorem C3_prove_roundtrip (hash_data : Data → Hash) (input : List Data)
    (record : Data) (hmem : record ∈ input) :
    ∃ p r,
      MerkleTree.prove hash_data (MerkleTree.construct hash_data input) record =
        some (some p) ∧
      (MerkleTree.construct hash_data input).root = some r ∧
      MerkleTree.verify_proof hash_data record p r = true := by
  have hmm : hash_data record ∈ input.map hash_data :=
    List.mem_map_of_mem hash_data hmem
  rcases hidx : buildIdx 0 (input.map hash_data) (hash_data record) with _ | idx
  · exact absurd ((buildIdx_eq_none 0 _ _).mp hidx) (by simp [hmm])
  · obtain ⟨-, hget⟩ := buildIdx_some_getElem? 0 _ _ idx hidx
    rw [Nat.sub_zero] at hget
    exact prove_verify_of_getElem? hash_data input idx record hidx hget

theorem C3_prove_roundtrip_witness :
    ∃ p r,
      MerkleTree.prove sampleHash (MerkleTree.construct sampleHash [[1], [2]]) [1] =
        some (some p) ∧
      (MerkleTree.construct sampleHash [[1], [2]]).root = some r ∧
      MerkleTree.verify_proof sampleHash [1] p r = true :=
  C3_prove_roundtrip sampleHash [[1], [2]] [1] (by decide)

/-- Claim C4: `verify`'s empty-set edge cases, under the (true of
SHA-256) hypothesis that the digest function never produces an empty
digest: the empty set verifies against the empty sentinel, a non-empty
set never verifies against the empty sentinel, and the empty set never
verifies against a non-empty claimed root. -/
theorem C4_verify_empty_cases (hash_data : Data → Hash)
    (hne : ∀ d, hash_data d ≠ []) :
    MerkleTree.verify hash_data [] [] = true ∧
    (∀ input, input ≠ [] → MerkleTree.verify hash_data input [] = false) ∧
    (∀ claimed, claimed ≠ [] → MerkleTree.verify hash_data [] claimed = false) := by
  refine ⟨rfl, ?_, ?_⟩
  · intro input hin
    unfold MerkleTree.verify
    rw [if_neg (by simp [hin])]
    apply decide_eq_false
    intro hc
    have hx : ([] : Hash) ∈ reduceAll hash_data (input.map hash_data) :=
      List.getElem?_mem hc
    obtain ⟨d, hd⟩ := reduceAll_mem_range hash_data (input.map hash_data).length _
      (Nat.le_refl _)
      (fun x hx' => by
        obtain ⟨d, -, hdx⟩ := List.mem_map.mp hx'
        exact ⟨d, hdx.symm⟩) _ hx
    exact hne d hd.symm
  · intro claimed hcl
    unfold MerkleTree.verify
    cases claimed with
    | nil => exact absurd rfl hcl
    | cons a l => rfl

theorem C4_verify_empty_cases_witness :
    MerkleTree.verify sampleHash [] [] = true ∧
    MerkleTree.verify sampleHash [[5]] [] = false ∧
    MerkleTree.verify sampleHash [] [1] = false := by
  obtain ⟨h1, h2, h3⟩ :=
    C4_verify_empty_cases sampleHash (fun d => by simp [sampleHash])
  exact ⟨h1, h2 [[5]] (by decide), h3 [1] (by decide)⟩

/-- Claim C5: the root of a three-record tree is
`hash_concat (hash_concat (leaf 0) (leaf 1)) (leaf 2)`, and the single
level-reduction pass on three digests carries the trailing unpaired
digest to the next level unchanged — neither re-hashed nor
duplicated. -/
theorem C5_three_leaf_root (hash_data : Data → Hash) (r0 r1 r2 : Data) :
    (MerkleTree.construct hash_data [r0, r1, r2]).root =
      some (hash_concat hash_data
        (hash_concat hash_data (hash_data r0) (hash_data r1)) (hash_data r2)) ∧
    reduceLevel hash_data [hash_data r0, hash_data r1, hash_data r2] =
      [hash_concat hash_data (hash_data r0) (hash_data r1), hash_data r2] :=
  ⟨rfl, rfl⟩

/-- Claim C6: on a constructed tree, `prove` returns the absence value
exactly when the record's leaf digest is not a key of the leaf index
map, and returns a proof whenever the digest is present. -/
theorem C6_prove_absence (hash_data : Data → Hash) (input : List Data)
    (record : Data) :
    (MerkleTree.prove hash_data (MerkleTree.construct hash_data input) record =
        some none ↔
      (MerkleTree.construct hash_data input).leaves_idx (hash_data record) =
        none) ∧
    ∀ idx,
      (MerkleTree.construct hash_data input).leaves_idx (hash_data record) =
        some idx →
      ∃ p, MerkleTree.prove hash_data (MerkleTree.construct hash_data input)
        record = some (some p) := by
  rcases hidx : buildIdx 0 (input.map hash_data) (hash_data record) with _ | idx
  · have hprove : MerkleTree.prove hash_data
        (MerkleTree.construct hash_data input) record = some none := by
      simp only [MerkleTree.prove, construct_leaves_idx, hidx]
    refine ⟨by rw [hprove, construct_leaves_idx, hidx]; simp, ?_⟩
    intro idx hidx2
    rw [construct_leaves_idx, hidx] at hidx2
    exact absurd hidx2 (by simp)
  · obtain ⟨-, hget⟩ := buildIdx_some_getElem? 0 _ _ idx hidx
    rw [Nat.sub_zero] at hget
    obtain ⟨pairs, hcp, -⟩ := roundtrip_aux hash_data (input.map hash_data).length
      _ idx _ (Nat.le_refl _) hget
    have hprove : MerkleTree.prove hash_data
        (MerkleTree.construct hash_data input) record =
        some (some { hashes := pairs }) := by
      simp only [MerkleTree.prove, construct_leaves_idx, construct_nodes, hidx,
        hcp, Option.map_some']
    refine ⟨?_, fun idx' _ => ⟨{ hashes := pairs }, hprove⟩⟩
    rw [hprove, construct_leaves_idx, hidx]
    simp

theorem C6_prove_absence_witness :
    MerkleTree.prove sampleHash (MerkleTree.construct sampleHash [[1]]) [2] =
      some none :=
  (C6_prove_absence sampleHash [[1]] [2]).1.mpr (by decide)

/-- Claim C7: on a single-record tree, `prove` of that record returns a
proof with an empty pair list (not the absence value), and
`verify_proof` of that empty proof against the tree's root returns
true. -/
theorem C7_single_record (hash_data : Data → Hash) (record : Data) :
    MerkleTree.prove hash_data (MerkleTree.construct hash_data [record]) record =
      some (some { hashes := [] }) ∧
    (MerkleTree.construct hash_data [record]).root = some (hash_data record) ∧
    MerkleTree.verify_proof hash_data record { hashes := [] }
      (hash_data record) = true := by
  refine ⟨?_, rfl, ?_⟩
  · simp only [MerkleTree.prove, construct_leaves_idx, construct_nodes]
    rw [show (([record] : List Data).map hash_data) = [hash_data record] from rfl,
      buildLevels_base hash_data _ (by simp)]
    simp [buildIdx, collectProof]
  · simp [MerkleTree.verify_proof]

/-- Claim C8: every proof generated from an `n`-record tree has at most
`ceil(log2 n)` pairs (one per level walked, and there are
`ceil(log2 n) + 1` levels). -/
theorem C8_proof_length_bound (hash_data : Data → Hash) (input : List Data)
    (record : Data) (p : Proof)
    (hn : 1 ≤ input.length)
    (hp : MerkleTree.prove hash_data (MerkleTree.construct hash_data input)
      record = some (some p)) :
    p.hashes.length ≤ Nat.clog 2 input.length := by
  rcases hidx : buildIdx 0 (input.map hash_data) (hash_data record) with _ | idx
  · have hprove : MerkleTree.prove hash_data
        (MerkleTree.construct hash_data input) record = some none := by
      simp only [MerkleTree.prove, construct_leaves_idx, hidx]
    rw [hprove] at hp
    exact absurd (Option.some.inj hp) (by simp)
  · have hpe : MerkleTree.prove hash_data
        (MerkleTree.construct hash_data input) record =
        (collectProof (buildLevels hash_data (input.map hash_data)).dropLast
          idx).map fun hs => some { hashes := hs } := by
      simp only [MerkleTree.prove, construct_leaves_idx, construct_nodes, hidx]
    rw [hpe] at hp
    obtain ⟨pairs, hcp, hpf⟩ := Option.map_eq_some'.mp hp
    obtain rfl : ({ hashes := pairs } : Proof) = p := Option.some.inj hpf
    have hlen := collectProof_length _ idx pairs hcp
    have hdll : (buildLevels hash_data (input.map hash_data)).dropLast.length =
        Nat.clog 2 input.length := by
      rw [List.length_dropLast,
        buildLevels_length hash_data (input.map hash_data).length _ (Nat.le_refl _)]
      simp
    rw [hdll] at hlen
    exact hlen

theorem C8_proof_length_bound_witness :
    ({ hashes := [(HashDirection.Left, [0, 0, 1, 0, 2])] } : Proof).hashes.length ≤
      Nat.clog 2 ([[1], [2], [3]] : List Data).length :=
  C8_proof_length_bound sampleHash [[1], [2], [3]] [3]
    { hashes := [(HashDirection.Left, [0, 0, 1, 0, 2])] } (by decide) (by decide)

/-- Claim C9 counterexample: the tree constructed from the empty input
has `[[]]` as its levels, so its last level has zero elements, not
exactly one. -/
theorem C9_counterexample :
    ((MerkleTree.construct sampleHash []).nodes.getLast?.map List.length) ≠
      some 1 := by
  decide

/-- Claim C9, amended to trees built from a non-empty input (the empty
input's tree has one level holding zero digests, see the
counterexample): every level after level 0 has length
`ceil(previous length / 2)`, and the last level has exactly one
element. -/
theorem C9_level_structure (hash_data : Data → Hash) (input : List Data)
    (hne : input ≠ []) :
    (∀ (i : Nat) (li lj : List Hash),
        (MerkleTree.construct hash_data input).nodes[i]? = some li →
        (MerkleTree.construct hash_data input).nodes[i + 1]? = some lj →
        lj.length = (li.length + 1) / 2) ∧
    ∃ r : Hash, (MerkleTree.construct hash_data input).nodes.getLast? =
      some [r] := by
  constructor
  · intro i li lj hi hj
    rw [construct_nodes] at hi hj
    exact buildLevels_chain hash_data (input.map hash_data).length _
      (Nat.le_refl _) i li lj hi hj
  · rw [construct_nodes,
      buildLevels_getLast? hash_data (input.map hash_data).length _ (Nat.le_refl _)]
    have hmapne : input.map hash_data ≠ [] := by simp [hne]
    obtain ⟨r, hr⟩ := List.length_eq_one.mp
      (reduceAll_length_one hash_data (input.map hash_data).length _
        (Nat.le_refl _) hmapne)
    exact ⟨r, by rw [hr]⟩

theorem C9_level_structure_witness :
    (∀ (i : Nat) (li lj : List Hash),
        (MerkleTree.construct sampleHash [[7]]).nodes[i]? = some li →
        (MerkleTree.construct sampleHash [[7]]).nodes[i + 1]? = some lj →
        lj.length = (li.length + 1) / 2) ∧
    ∃ r : Hash, (MerkleTree.construct sampleHash [[7]]).nodes.getLast? =
      some [r] :=
  C9_level_structure sampleHash [[7]] (by decide)

/-- Claim C10: when the records at positions `i < j` share a leaf digest
and `j` is the digest's last occurrence, the leaf index map retains
position `j` (the later insert overwrote the earlier), and `prove` for
the earlier record — which therefore walks up from position `j` — still
yields a proof that verifies against the tree's root, because the digest
at `j` equals the record's own leaf digest. -/
theorem C10_duplicate_digest_last_wins (hash_data : Data → Hash)
    (input : List Data) (i j : Nat) (ri : Data)
    (hri : input[i]? = some ri)
    (hij : i < j)
    (hj : (input.map hash_data)[j]? = some (hash_data ri))
    (hlast : ∀ k, k < (input.map hash_data).length → j < k →
      (input.map hash_data)[k]? ≠ some (hash_data ri)) :
    (MerkleTree.construct hash_data input).leaves_idx (hash_data ri) = some j ∧
    ∃ p r,
      MerkleTree.prove hash_data (MerkleTree.construct hash_data input) ri =
        some (some p) ∧
      (MerkleTree.construct hash_data input).root = some r ∧
      MerkleTree.verify_proof hash_data ri p r = true := by
  have hlast' : ∀ k, j < k → (input.map hash_data)[k]? ≠ some (hash_data ri) := by
    intro k hk
    by_cases hklen : k < (input.map hash_data).length
    · exact hlast k hklen hk
    · rw [List.getElem?_eq_none (by omega)]
      simp
  have hidx : buildIdx 0 (input.map hash_data) (hash_data ri) = some j := by
    have hb := buildIdx_last 0 (input.map hash_data) (hash_data ri) j hj hlast'
    simpa using hb
  exact ⟨by rw [construct_leaves_idx]; exact hidx,
    prove_verify_of_getElem? hash_data input j ri hidx hj⟩

theorem C10_duplicate_digest_last_wins_witness :
    (MerkleTree.construct sampleHash [[1], [2], [1]]).leaves_idx
      (sampleHash [1]) = some 2 ∧
    ∃ p r,
      MerkleTree.prove sampleHash
        (MerkleTree.construct sampleHash [[1], [2], [1]]) [1] = some (some p) ∧
      (MerkleTree.construct sampleHash [[1], [2], [1]]).root = some r ∧
      MerkleTree.verify_proof sampleHash [1] p r = true :=
  C10_duplicate_digest_last_wins sampleHash [[1], [2], [1]] 0 2 [1]
    (by decide) (by decide) (by decide) (by decide)
